import Mathlib

/-!
Shallow embedding of the Connect-Four engine and its agents
(`src/game.rs`, `src/agent.rs`, `src/minimax_agent.rs`, `src/rl_agent.rs`),
with theorems settling the specification claims about them.

Conventions of the embedding:
* `Vec<Vec<Option<Player>>>` becomes `List (List (Option Player))`; row 0 is
  the top of the board, exactly as in the Rust code.
* Machine integers (`usize`, `i32`) become `Nat` / `Int`; all scores the code
  computes are far from the `i32` range, so no wrap-around is modelled.
* `f64` values of the learning agent become exact rationals `Rat`; the claims
  about that agent concern control flow only, never rounding.
* A Rust indexing operation that can panic is modelled by an `Option`-valued
  function whose `none` is the panic; indexing that the surrounding code has
  already bounds-checked is modelled by total access on the rectangular board.
-/

namespace Connect4

/-- Players, `Player` in `src/game.rs` (Yellow moves first). -/
inductive Player where
  | red
  | yellow
deriving DecidableEq, Repr

/-- The `match` switching players at the end of `Game::place`. -/
def Player.other : Player → Player
  | .red => .yellow
  | .yellow => .red

/-- Game status, `GameState` in `src/game.rs`. -/
inductive GameState where
  | inProgress
  | won (p : Player)
  | draw
deriving DecidableEq, Repr

/-- Board configuration, `GameConfig` in `src/game.rs`. -/
structure GameConfig where
  rows : Nat
  cols : Nat
  connect_length : Nat
deriving DecidableEq, Repr

abbrev Board := List (List (Option Player))

/-- The game value, `Game` in `src/game.rs`. -/
structure Game where
  board : Board
  current_player : Player
  state : GameState
  config : GameConfig
deriving DecidableEq, Repr

/-- `Game::with_config`: a `rows x cols` grid of empty cells, Yellow first. -/
def Game.with_config (config : GameConfig) : Game :=
  { board := List.replicate config.rows (List.replicate config.cols none)
    current_player := .yellow
    state := .inProgress
    config := config }

/-- Rust `self.board[row][col]` at a position the code has already checked to
be inside the `rows x cols` rectangle; every board built by this development
is such a rectangle, so the `getD` defaults are never reached in those uses. -/
def cellAt (b : Board) (row col : Nat) : Option Player :=
  (b.getD row []).getD col none

/-- Rust `self.board[row][column] = v`. -/
def setCell (b : Board) (row col : Nat) (v : Option Player) : Board :=
  b.set row ((b.getD row []).set col v)

/-- The iterator of `Game::is_column_full`: `self.board.iter().all(|row| row[col].is_some())`.
`row[col]` panics when `col` is out of range for that row; the panic is the
`none` result, and `all` short-circuits on the first unoccupied cell. -/
def isColumnFullRows : Board → Nat → Option Bool
  | [], _ => some true
  | row :: rest, col =>
    match row[col]? with
    | none => none
    | some cell => if cell.isSome then isColumnFullRows rest col else some false

/-- `Game::is_column_full`; `none` models the panic on an out-of-range column. -/
def Game.is_column_full (g : Game) (col : Nat) : Option Bool :=
  isColumnFullRows g.board col

/-- `Game::valid_moves`: `(0..cols).filter(|&col| !self.is_column_full(col))`.
For `col < cols` on the rectangular board `is_column_full` never panics, so
the `getD true` default is never reached. -/
def Game.valid_moves (g : Game) : List Nat :=
  (List.range g.config.cols).filter (fun col => !((g.is_column_full col).getD true))

/-- The row search in `Game::place`:
`(0..rows).rev().find(|&row| self.board[row][column].is_none())`. -/
def findRow (g : Game) (column : Nat) : Option Nat :=
  (List.range g.config.rows).reverse.find? (fun row => (cellAt g.board row column).isNone)

/-- The `while` loop of `Game::count_direction`, stepping by `(row_dir, col_dir)`
while inside the board on cells of `player`.  The loop leaves the board after
at most `max rows cols` steps, so fuel `rows + cols` never runs out at the
call sites (whose direction components are `-1`, `0` or `1`, not both `0`). -/
def countDirCore (b : Board) (rows cols : Nat) (player : Player)
    (row_dir col_dir : Int) : Nat → Int → Int → Nat
  | 0, _, _ => 0
  | fuel + 1, r, c =>
    if 0 ≤ r ∧ r < (rows : Int) ∧ 0 ≤ c ∧ c < (cols : Int)
        ∧ cellAt b r.toNat c.toNat = some player then
      1 + countDirCore b rows cols player row_dir col_dir fuel (r + row_dir) (c + col_dir)
    else 0

/-- `Game::count_direction`. -/
def Game.count_direction (g : Game) (row col : Nat) (row_dir col_dir : Int)
    (player : Player) : Nat :=
  countDirCore g.board g.config.rows g.config.cols player row_dir col_dir
    (g.config.rows + g.config.cols) ((row : Int) + row_dir) ((col : Int) + col_dir)

/-- `Game::count_consecutive`.  Rust `unwrap`s the cell at `(row, col)`; the
only caller (`check_win` inside `place`) has just filled that cell, so the
`none` branch (the `unwrap` panic) is unreachable there. -/
def Game.count_consecutive (g : Game) (row col : Nat) (row_dir col_dir : Int) : Nat :=
  match cellAt g.board row col with
  | some player =>
      1 + g.count_direction row col row_dir col_dir player
        + g.count_direction row col (-row_dir) (-col_dir) player
  | none => 0

/-- `Game::check_win`.  The threshold is the literal `4` of the source, not
`config.connect_length`. -/
def Game.check_win (g : Game) (row col : Nat) : Bool :=
  if 4 ≤ g.count_consecutive row col 0 1 then true
  else if 4 ≤ g.count_consecutive row col 1 0 then true
  else if 4 ≤ g.count_consecutive row col (-1) 1 then true
  else if 4 ≤ g.count_consecutive row col 1 1 then true
  else false

/-- `Game::is_board_full`. -/
def Game.is_board_full (g : Game) : Bool :=
  g.board.all (fun row => row.all (fun cell => cell.isSome))

/-- The success branch of `Game::place` once the landing row is found: put
the piece down, re-evaluate the status, and switch players only if the game
is still running. -/
def Game.placeAt (g : Game) (row column : Nat) : Game :=
  let g1 : Game := { g with board := setCell g.board row column (some g.current_player) }
  let g2 : Game :=
    if g1.check_win row column then { g1 with state := .won g1.current_player }
    else if g1.is_board_full then { g1 with state := .draw }
    else g1
  if g2.state = .inProgress then { g2 with current_player := g2.current_player.other }
  else g2

/-- `Game::place`.  The pair is (the Rust return value, the board after the
call); `place` mutates `self` in Rust, so the second component carries the
state through. -/
def Game.place (g : Game) (column : Nat) : Option GameState × Game :=
  if g.state ≠ .inProgress then (some g.state, g)
  else if g.config.cols ≤ column then (none, g)
  else
    match findRow g column with
    | some row => (some (g.placeAt row column).state, g.placeAt row column)
    | none => (none, g)

/-- `Game::get_cell` (bounds-checked, total). -/
def Game.get_cell (g : Game) (row col : Nat) : Option Player :=
  if row < g.config.rows ∧ col < g.config.cols then cellAt g.board row col else none

/-- The body of the scan of `Game::get_winning_combination` at one starting
cell: the four direction checks in source order (horizontal, vertical,
diagonal `/`, diagonal `\`), each over the literal offsets `1..4`. -/
def Game.winAt (g : Game) (player : Player) (row col : Nat) :
    Option (List (Nat × Nat)) :=
  if cellAt g.board row col = some player then
    if col + 3 < g.config.cols
        ∧ (List.range 3).all
          (fun i => cellAt g.board row (col + i + 1) = some player) then
      some [(row, col), (row, col + 1), (row, col + 2), (row, col + 3)]
    else if row + 3 < g.config.rows
        ∧ (List.range 3).all
          (fun i => cellAt g.board (row + i + 1) col = some player) then
      some [(row, col), (row + 1, col), (row + 2, col), (row + 3, col)]
    else if 3 ≤ row ∧ col + 3 < g.config.cols
        ∧ (List.range 3).all
          (fun i => cellAt g.board (row - (i + 1)) (col + i + 1) = some player) then
      some [(row, col), (row - 1, col + 1), (row - 2, col + 2), (row - 3, col + 3)]
    else if row + 3 < g.config.rows ∧ col + 3 < g.config.cols
        ∧ (List.range 3).all
          (fun i => cellAt g.board (row + i + 1) (col + i + 1) = some player) then
      some [(row, col), (row + 1, col + 1), (row + 2, col + 2), (row + 3, col + 3)]
    else none
  else none

/-- `Game::get_winning_combination`: row-major scan, first match wins.  All
runs it looks for have the literal length `4` of the source. -/
def Game.get_winning_combination (g : Game) : Option (List (Nat × Nat)) :=
  match g.state with
  | .won player =>
    (List.range g.config.rows).findSome? (fun row =>
      (List.range g.config.cols).findSome? (fun col => g.winAt player row col))
  | _ => none

/-- A sequence of `place` calls, as the app's game loop issues them. -/
def playSeq (g : Game) (moves : List Nat) : Game :=
  moves.foldl (fun g c => (g.place c).2) g

/-- The structural invariant of every `Game` the Rust code builds: the board
is a `rows x cols` rectangle. -/
def Game.WF (g : Game) : Prop :=
  g.board.length = g.config.rows ∧ ∀ row ∈ g.board, row.length = g.config.cols

instance (g : Game) : Decidable g.WF := by
  unfold Game.WF; infer_instance

/-! ### `src/agent.rs`: the random and greedy agents -/

/-- `RandomAgent::get_action`.  `sample` stands for the value the rng returns
for `random_range(0..n)`, reduced into range by `% n`.  When the valid-move
set is empty the Rust range `0..0` makes `random_range` panic: the panic is
the outer `none`, while the inner option is the Rust `Option<usize>` result. -/
def RandomAgent.get_action (board : Game) (sample : Nat) : Option (Option Nat) :=
  if board.valid_moves.length = 0 then none
  else some (some (board.valid_moves.getD (sample % board.valid_moves.length) 0))

/-- The eight neighbour directions scanned by `GreedyAgent::evaluate_move`. -/
def directions8 : List (Int × Int) :=
  [(-1, -1), (-1, 0), (-1, 1), (0, -1), (0, 1), (1, -1), (1, 0), (1, 1)]

/-- The inner direction loop of `GreedyAgent::evaluate_move`: how many of the
eight neighbours of `(row, col)` are in bounds and hold `player`. -/
def neighborCount (board_copy : Game) (player : Player) (row col : Nat) : Int :=
  ((directions8.filter (fun d =>
    decide (0 ≤ (row : Int) + d.1 ∧ (row : Int) + d.1 < (board_copy.config.rows : Int)
      ∧ 0 ≤ (col : Int) + d.2 ∧ (col : Int) + d.2 < (board_copy.config.cols : Int)
      ∧ board_copy.get_cell ((row : Int) + d.1).toNat ((col : Int) + d.2).toNat
          = some player))).length : Int)

/-- `GreedyAgent::evaluate_move`: simulate the drop on a copy, then score the
whole board by counting same-colour neighbours of every cell of the mover. -/
def GreedyAgent.evaluate_move (board : Game) (col : Nat) : Int :=
  let r := board.place col
  if r.1 = none then -1
  else
    let board_copy := r.2
    let player := board.current_player
    ((List.range board.config.rows).map (fun row =>
      ((List.range board.config.cols).map (fun c =>
        match board_copy.get_cell row c with
        | some piece => if piece = player then neighborCount board_copy player row c else 0
        | none => 0)).sum)).sum

/-- One step of the best-score fold in `GreedyAgent::get_action`: a strictly
higher score resets the candidate list, an equal one appends. -/
def bestStep (board : Game) (acc : Int × List Nat) (col : Nat) : Int × List Nat :=
  let score := GreedyAgent.evaluate_move board col
  if acc.1 < score then (score, [col])
  else if score = acc.1 then (acc.1, acc.2 ++ [col])
  else acc

/-- Insertion step of a stable sort by key (ties keep the earlier element
first), the behaviour of Rust's stable `sort_by_key`. -/
def insertByKey (key : Nat → Nat) (x : Nat) : List Nat → List Nat
  | [] => [x]
  | y :: ys => if key x ≤ key y then x :: y :: ys else y :: insertByKey key x ys

/-- Stable insertion sort by key: extensionally the Rust stable `sort_by_key`. -/
def sortByKey (key : Nat → Nat) : List Nat → List Nat
  | [] => []
  | x :: xs => insertByKey key x (sortByKey key xs)

/-- The tie-break key of `GreedyAgent::get_action`:
`(col as i32 - center as i32).abs()`. -/
def distKey (center : Nat) (col : Nat) : Nat :=
  ((col : Int) - (center : Int)).natAbs

/-- `GreedyAgent::get_action`.  Note `center` is `valid_moves.len() / 2`, a
count of moves used as a column index.  `best_moves` is provably nonempty
whenever `valid_moves` is, so `headI` (Rust `best_moves[0]`) never falls back
to its default. -/
def GreedyAgent.get_action (board : Game) : Option Nat :=
  let valid_moves := board.valid_moves
  if valid_moves.isEmpty then none
  else
    let best := valid_moves.foldl (bestStep board) (-1, [])
    let best_moves :=
      if 1 < best.2.length then
        let center := valid_moves.length / 2
        sortByKey (distKey center) best.2
      else best.2
    some best_moves.headI

/-! ### `src/minimax_agent.rs`: the search agent

Every function below that can hit a Rust indexing panic returns an `Option`
whose `none` is that panic.  The column scans are the literal `0..7` of the
source, and the evaluator's bounds the literal `0..6` rows and `0..7`
columns, whatever `board.config` says. -/

namespace Minimax

/-- The move scan `(0..7).filter(|&col| !board.is_column_full(col))` used by
`get_action` and `minimax`: `is_column_full` panics (`none`) as soon as a row
is shorter than the hard-coded column range. -/
def mmFilterMoves (board : Game) : List Nat → Option (List Nat)
  | [] => some []
  | col :: rest =>
    match board.is_column_full col with
    | none => none
    | some b =>
      match mmFilterMoves board rest with
      | none => none
      | some others => some (if b then others else col :: others)

/-- The hard-coded valid-move set of `src/minimax_agent.rs`. -/
def mmValidMoves (board : Game) : Option (List Nat) :=
  mmFilterMoves board (List.range 7)

/-- The reduced direction set of `MinimaxAgent::has_adjacent_same_color`. -/
def mmDirections : List (Int × Int) :=
  [(0, -1), (0, 1), (1, 0), (1, -1), (1, 1)]

/-- `MinimaxAgent::has_adjacent_same_color`; the bounds are the literal `6`
rows and `7` columns of the source. -/
def has_adjacent_same_color (board : Game) (row col : Nat) (color : Player) : Bool :=
  mmDirections.any (fun d =>
    decide (0 ≤ (row : Int) + d.1 ∧ (row : Int) + d.1 < 6
      ∧ 0 ≤ (col : Int) + d.2 ∧ (col : Int) + d.2 < 7
      ∧ board.get_cell ((row : Int) + d.1).toNat ((col : Int) + d.2).toNat = some color))

/-- `MinimaxAgent::eval_position`: centre-column control plus per-piece centre
proximity and adjacency bonuses, over the literal `0..6` x `0..7` grid. -/
def eval_position (board : Game) : Int :=
  let my_color := board.current_player
  let opponent_color := my_color.other
  let center_col : Nat := 3
  let centerScore : Int :=
    ((List.range 6).map (fun row =>
      match board.get_cell row center_col with
      | some player =>
        if player = my_color then (5 : Int)
        else if player = opponent_color then -2 else 0
      | none => 0)).sum
  let pieceScore : Int :=
    ((List.range 6).map (fun row =>
      ((List.range 7).map (fun col =>
        match board.get_cell row col with
        | some player =>
          if player = my_color then
            (5 - (((col : Int) - (center_col : Int)).natAbs : Int))
              + (if has_adjacent_same_color board row col my_color then 2 else 0)
          else if player = opponent_color then
            -(6 - (((col : Int) - (center_col : Int)).natAbs : Int))
              + (if has_adjacent_same_color board row col opponent_color then -2 else 0)
          else 0
        | none => 0)).sum)).sum
  centerScore + pieceScore

/-- The maximizing branch's loop of `MinimaxAgent::minimax`: `step` is the
recursive call at one less depth; the `beta <= alpha` comparison after
raising `alpha` is the beta cutoff `break`. -/
def abLoopMax (board : Game) (step : Game → Int → Int → Option Int) :
    List Nat → Int → Int → Int → Option Int
  | [], max_eval, _, _ => some max_eval
  | col :: rest, max_eval, alpha, beta =>
    let r := board.place col
    if r.1.isSome then
      match step r.2 alpha beta with
      | none => none
      | some eval =>
        let max_eval' := max max_eval eval
        let alpha' := max alpha eval
        if beta ≤ alpha' then some max_eval'
        else abLoopMax board step rest max_eval' alpha' beta
    else abLoopMax board step rest max_eval alpha beta

/-- The minimizing branch's loop of `MinimaxAgent::minimax`. -/
def abLoopMin (board : Game) (step : Game → Int → Int → Option Int) :
    List Nat → Int → Int → Int → Option Int
  | [], min_eval, _, _ => some min_eval
  | col :: rest, min_eval, alpha, beta =>
    let r := board.place col
    if r.1.isSome then
      match step r.2 alpha beta with
      | none => none
      | some eval =>
        let min_eval' := min min_eval eval
        let beta' := min beta eval
        if beta' ≤ alpha then some min_eval'
        else abLoopMin board step rest min_eval' alpha beta'
    else abLoopMin board step rest min_eval alpha beta

/-- `MinimaxAgent::minimax` with alpha-beta pruning.  Terminal states score
+-1000 or 0; at exhausted depth the static evaluator decides; `i32::MIN` and
`i32::MAX` are the literal Rust constants. -/
def minimax (player : Player) (depth : Nat) (board : Game) (alpha beta : Int)
    (is_maximizing : Bool) : Option Int :=
  match board.state with
  | .won p => some (if p = player then 1000 else -1000)
  | .draw => some 0
  | .inProgress =>
    match depth with
    | 0 => some (eval_position board)
    | depth' + 1 =>
      match mmValidMoves board with
      | none => none
      | some valid_moves =>
        if valid_moves.isEmpty then some 0
        else if is_maximizing then
          abLoopMax board (fun b a bb => minimax player depth' b a bb false)
            valid_moves (-2147483648) alpha beta
        else
          abLoopMin board (fun b a bb => minimax player depth' b a bb true)
            valid_moves 2147483647 alpha beta

/-- The setup loop of `MinimaxAgent::is_winning_move`: drop one piece for the
current player in the first available column other than `column` (hard-coded
scan over `0..7`), so that `player` is next to move. -/
def setupLoop (column : Nat) : List Nat → Game → Option Game
  | [], g => some g
  | col :: rest, g =>
    if col ≠ column then
      match g.is_column_full col with
      | none => none
      | some true => setupLoop column rest g
      | some false =>
        let r := g.place col
        if r.1.isSome then some r.2 else setupLoop column rest r.2
    else setupLoop column rest g

/-- The final placement test of `MinimaxAgent::is_winning_move`. -/
def placeAndCheckWin (board_copy : Game) (column : Nat) (player : Player) : Bool :=
  let r := board_copy.place column
  if r.1.isSome then
    match r.2.state with
    | .won p => p = player
    | _ => false
  else false

/-- `MinimaxAgent::is_winning_move`. -/
def is_winning_move (board : Game) (column : Nat) (player : Player) : Option Bool :=
  if board.current_player ≠ player then
    match setupLoop column (List.range 7) board with
    | none => none
    | some board_copy =>
      if board_copy.current_player ≠ player then some false
      else some (placeAndCheckWin board_copy column player)
  else some (placeAndCheckWin board column player)

/-- The one-move win / forced-block scans of `MinimaxAgent::get_action`. -/
def findWinningCol (board : Game) (player : Player) : List Nat → Option (Option Nat)
  | [] => some none
  | col :: rest =>
    match is_winning_move board col player with
    | none => none
    | some true => some (some col)
    | some false => findWinningCol board player rest

/-- The root search loop of `MinimaxAgent::get_action`: strict improvement
moves the best column, then `alpha` is raised to the best value. -/
def rootLoop (player : Player) (depth' : Nat) (board : Game) :
    List Nat → Nat → Int → Int → Option Nat
  | [], best_col, _, _ => some best_col
  | col :: rest, best_col, best_value, alpha =>
    let r := board.place col
    if r.1.isSome then
      match minimax player depth' r.2 alpha 2147483647 false with
      | none => none
      | some value =>
        let best := if best_value < value then (col, value) else (best_col, best_value)
        rootLoop player depth' board rest best.1 best.2 (max alpha best.2)
    else rootLoop player depth' board rest best_col best_value alpha

/-- `MinimaxAgent::get_action`.  The outer `none` is a panic; the inner value
is the Rust `Option<usize>` result.  `max_depth - 1` is the Rust `usize`
subtraction, meaningful for the `max_depth >= 1` the claims quantify over.
`valid_moves.getLast?` is Rust `valid_moves[valid_moves.len() - 1]`, whose
empty case underflows the index and panics. -/
def get_action (max_depth : Nat) (board : Game) : Option (Option Nat) :=
  match mmValidMoves board with
  | none => none
  | some valid_moves =>
    if valid_moves.length = 1 then some (some valid_moves.headI)
    else
      let current_player := board.current_player
      match findWinningCol board current_player valid_moves with
      | none => none
      | some (some col) => some (some col)
      | some none =>
        match findWinningCol board current_player.other valid_moves with
        | none => none
        | some (some col) => some (some col)
        | some none =>
          match valid_moves.getLast? with
          | none => none
          | some last =>
            match rootLoop current_player (max_depth - 1) board valid_moves
                last (-2147483648) (-2147483648) with
            | none => none
            | some best_col => some (some best_col)

end Minimax

/-! ### `src/rl_agent.rs`: the learning agent

`f64` becomes the exact rational `Rat`; the `HashMap` becomes an association
list (the code only ever looks entries up by key, never iterates the map). -/

/-- `RLAgent::save_path`: the `PathBuf` as its components; the file name is
`format!("q_table_{}x{}.json", config.cols, config.rows)`.  Note
`connect_length` is not part of the name. -/
def RLAgent.save_path (config : GameConfig) : List String :=
  ["connect4", "rl_data",
    "q_table_" ++ Nat.repr config.cols ++ "x" ++ Nat.repr config.rows ++ ".json"]

/-- The learning agent's state, `RLAgent` in `src/rl_agent.rs`. -/
structure RLAgent where
  q_table : List (String × List Rat)
  epsilon : Rat
  learning : Bool
  turn : Nat
  agent_color : Player
  move_history : List (String × Nat)
  board_config : GameConfig
deriving DecidableEq, Repr

/-- `HashMap` lookup on the association-list model. -/
def qLookup : List (String × List Rat) → String → Option (List Rat)
  | [], _ => none
  | (k, v) :: rest, s => if k = s then some v else qLookup rest s

/-- `HashMap` insert-or-replace on the association-list model. -/
def qInsert : List (String × List Rat) → String → List Rat → List (String × List Rat)
  | [], s, v => [(s, v)]
  | (k, w) :: rest, s, v => if k = s then (k, v) :: rest else (k, w) :: qInsert rest s v

/-- `RLAgent::update_q_value`: fetch (or create) the per-column value array,
`resize` it to `cols` entries when the action index is past its end, then move
the entry toward `reward` by `LEARNING_RATE = 0.15`. -/
def RLAgent.update_q_value (a : RLAgent) (state : String) (action : Nat)
    (reward : Rat) : RLAgent :=
  let q := (qLookup a.q_table state).getD (List.replicate a.board_config.cols 0)
  let q :=
    if q.length ≤ action then
      q.take a.board_config.cols ++ List.replicate (a.board_config.cols - q.length) 0
    else q
  let old_value := q.getD action 0
  let q := q.set action (old_value + (3 / 20 : Rat) * (reward - old_value))
  { a with q_table := qInsert a.q_table state q }

/-- The body of `RLAgent::learn` after the outcome reward is fixed: duration
bonus, back-propagation over the episode history from the most recent move
(`enumerate().rev()`) with the per-position scaling and the `-0.5` loss
floor, then clear the history and the turn counter.  (`save_q_table` only
does I/O and changes no agent state.) -/
def RLAgent.learnCore (a : RLAgent) (base_reward : Rat) : RLAgent :=
  let duration_bonus : Rat := (a.turn : Rat) * (1 / 50)
  let reward :=
    if base_reward < 0 then base_reward + duration_bonus
    else base_reward + duration_bonus * (1 / 2)
  let history_len := a.move_history.length
  let a1 := (a.move_history.enum.reverse).foldl (fun acc x =>
      let position_factor : Rat := ((x.1 + 1 : Nat) : Rat) / (history_len : Rat)
      let move_reward := reward * position_factor
      let adjusted_reward :=
        if reward < 0 ∧ -(1 / 2 : Rat) < move_reward then -(1 / 2 : Rat) else move_reward
      acc.update_q_value x.2.1 x.2.2 adjusted_reward) a
  { a1 with move_history := [], turn := 0 }

/-- `RLAgent::learn`: a no-op unless learning is on, the episode history is
nonempty and the board is terminal; rewards are `WIN_REWARD = 5`,
`LOSS_REWARD = -10`, `DRAW_REWARD = 1`. -/
def RLAgent.learn (a : RLAgent) (board : Game) (player : Player) : RLAgent :=
  if ¬a.learning ∨ a.move_history = [] then a
  else
    match board.state with
    | .won winner => a.learnCore (if winner = player then 5 else -10)
    | .draw => a.learnCore 1
    | .inProgress => a

/-- The greedy tie-break as the spec words it, for comparison with
`GreedyAgent.get_action`: among the columns tied for the best score, the one
closest to the horizontal center of the valid-move set — the middle column
of that set — residual ties broken by the smaller column index. -/
def specGreedyChoice (board : Game) : Option Nat :=
  let valid_moves := board.valid_moves
  if valid_moves.isEmpty then none
  else
    let best := valid_moves.foldl (bestStep board) (-1, [])
    let center := valid_moves.getD (valid_moves.length / 2) 0
    some (sortByKey (distKey center) best.2).headI

/-! ### Concrete positions used by the claims -/

/-- Shorthand for a red cell in board literals. -/
def Rc : Option Player := some .red

/-- Shorthand for a yellow cell in board literals. -/
def Yc : Option Player := some .yellow

/-- Shorthand for an empty cell in board literals. -/
def Ec : Option Player := none

/-- The Small preset (4x4, connect-3) after Yellow 0, Red 3, Yellow 1,
Red 3, Yellow 2: Yellow holds a bottom-row run of three. -/
def smallThree : Game := playSeq (Game.with_config ⟨4, 4, 3⟩) [0, 3, 1, 3, 2]

/-- The Small preset after Yellow stacks four pieces in column 0. -/
def smallVert : Game := playSeq (Game.with_config ⟨4, 4, 3⟩) [0, 1, 0, 1, 0, 1, 0]

/-- The position `smallVert` reaches, written out cell by cell (proved equal
below, one `place` step at a time). -/
def smallVertLit : Game :=
  ⟨[[Yc, Ec, Ec, Ec], [Yc, Rc, Ec, Ec], [Yc, Rc, Ec, Ec], [Yc, Rc, Ec, Ec]],
    .yellow, .won .yellow, ⟨4, 4, 3⟩⟩

/-- A 1x1 board after its only cell is filled: drawn, every column full. -/
def tiny : Game := playSeq (Game.with_config ⟨1, 1, 2⟩) [0]

/-- A reachable 2x7 position with Yellow to move whose columns 0 and 1 are
full, so `valid_moves.len() / 2` no longer points at the middle of the
valid-move set. -/
def greedyCex : Game := playSeq (Game.with_config ⟨2, 7, 4⟩) [1, 0, 1, 0, 4, 2, 6, 3]

/-- The position `greedyCex` reaches, written out cell by cell. -/
def greedyCexLit : Game :=
  ⟨[[Rc, Yc, Ec, Ec, Ec, Ec, Ec], [Rc, Yc, Rc, Rc, Yc, Ec, Yc]],
    .yellow, .inProgress, ⟨2, 7, 4⟩⟩

/-! ### Abbreviations for stating the greedy agent's selection rule -/

/-- The running maximum the greedy fold tracks (initial value `-1`). -/
def bestScore (g : Game) : Int :=
  g.valid_moves.foldl (fun x d => max x (GreedyAgent.evaluate_move g d)) (-1)

/-- The tied-for-best column list the greedy fold builds. -/
def bestCols (g : Game) : List Nat :=
  (g.valid_moves.foldl (bestStep g) (-1, [])).2

/-! ### A reference decimal rendering, to reason about `Nat.repr` -/

/-- Decimal digits of `n`, most significant first; proved below to be the
character data of `Nat.repr n`. -/
def decRepr (n : Nat) : List Char :=
  if n < 10 then [Nat.digitChar n]
  else decRepr (n / 10) ++ [Nat.digitChar (n % 10)]
decreasing_by exact Nat.div_lt_self (by omega) (by omega)

/-- Base-10 value of a digit string: a left inverse of `decRepr`. -/
def decVal (l : List Char) : Nat :=
  l.foldl (fun a c => 10 * a + (c.toNat - 48)) 0

/-- `bestStep` with the scoring function abstracted out, to state the fold
lemmas once: `bestStep g = genStep (GreedyAgent.evaluate_move g)`. -/
def genStep (f : Nat → Int) (acc : Int × List Nat) (col : Nat) : Int × List Nat :=
  if acc.1 < f col then (f col, [col])
  else if f col = acc.1 then (acc.1, acc.2 ++ [col])
  else acc


/-! ### Step lemmas for `playSeq` and the concrete positions -/

theorem playSeq_nil (g : Game) : playSeq g [] = g := rfl

theorem playSeq_cons (g : Game) (c : Nat) (ms : List Nat) :
    playSeq g (c :: ms) = playSeq (g.place c).2 ms := rfl

theorem smallVert_eq_lit : smallVert = smallVertLit := by
  have s1 : ((Game.with_config ⟨4, 4, 3⟩).place 0).2 =
      (⟨[[Ec, Ec, Ec, Ec], [Ec, Ec, Ec, Ec], [Ec, Ec, Ec, Ec], [Yc, Ec, Ec, Ec]], .red, .inProgress, ⟨4, 4, 3⟩⟩ : Game) := by decide
  have s2 : (((⟨[[Ec, Ec, Ec, Ec], [Ec, Ec, Ec, Ec], [Ec, Ec, Ec, Ec], [Yc, Ec, Ec, Ec]], .red, .inProgress, ⟨4, 4, 3⟩⟩ : Game)).place 1).2 =
      (⟨[[Ec, Ec, Ec, Ec], [Ec, Ec, Ec, Ec], [Ec, Ec, Ec, Ec], [Yc, Rc, Ec, Ec]], .yellow, .inProgress, ⟨4, 4, 3⟩⟩ : Game) := by decide
  have s3 : (((⟨[[Ec, Ec, Ec, Ec], [Ec, Ec, Ec, Ec], [Ec, Ec, Ec, Ec], [Yc, Rc, Ec, Ec]], .yellow, .inProgress, ⟨4, 4, 3⟩⟩ : Game)).place 0).2 =
      (⟨[[Ec, Ec, Ec, Ec], [Ec, Ec, Ec, Ec], [Yc, Ec, Ec, Ec], [Yc, Rc, Ec, Ec]], .red, .inProgress, ⟨4, 4, 3⟩⟩ : Game) := by decide
  have s4 : (((⟨[[Ec, Ec, Ec, Ec], [Ec, Ec, Ec, Ec], [Yc, Ec, Ec, Ec], [Yc, Rc, Ec, Ec]], .red, .inProgress, ⟨4, 4, 3⟩⟩ : Game)).place 1).2 =
      (⟨[[Ec, Ec, Ec, Ec], [Ec, Ec, Ec, Ec], [Yc, Rc, Ec, Ec], [Yc, Rc, Ec, Ec]], .yellow, .inProgress, ⟨4, 4, 3⟩⟩ : Game) := by decide
  have s5 : (((⟨[[Ec, Ec, Ec, Ec], [Ec, Ec, Ec, Ec], [Yc, Rc, Ec, Ec], [Yc, Rc, Ec, Ec]], .yellow, .inProgress, ⟨4, 4, 3⟩⟩ : Game)).place 0).2 =
      (⟨[[Ec, Ec, Ec, Ec], [Yc, Ec, Ec, Ec], [Yc, Rc, Ec, Ec], [Yc, Rc, Ec, Ec]], .red, .inProgress, ⟨4, 4, 3⟩⟩ : Game) := by decide
  have s6 : (((⟨[[Ec, Ec, Ec, Ec], [Yc, Ec, Ec, Ec], [Yc, Rc, Ec, Ec], [Yc, Rc, Ec, Ec]], .red, .inProgress, ⟨4, 4, 3⟩⟩ : Game)).place 1).2 =
      (⟨[[Ec, Ec, Ec, Ec], [Yc, Rc, Ec, Ec], [Yc, Rc, Ec, Ec], [Yc, Rc, Ec, Ec]], .yellow, .inProgress, ⟨4, 4, 3⟩⟩ : Game) := by decide
  have s7 : (((⟨[[Ec, Ec, Ec, Ec], [Yc, Rc, Ec, Ec], [Yc, Rc, Ec, Ec], [Yc, Rc, Ec, Ec]], .yellow, .inProgress, ⟨4, 4, 3⟩⟩ : Game)).place 0).2 =
      smallVertLit := by decide
  rw [smallVert, playSeq_cons, s1, playSeq_cons, s2, playSeq_cons, s3, playSeq_cons, s4, playSeq_cons, s5, playSeq_cons, s6, playSeq_cons, s7, playSeq_nil]

theorem greedyCex_eq_lit : greedyCex = greedyCexLit := by
  have s1 : ((Game.with_config ⟨2, 7, 4⟩).place 1).2 =
      (⟨[[Ec, Ec, Ec, Ec, Ec, Ec, Ec], [Ec, Yc, Ec, Ec, Ec, Ec, Ec]], .red, .inProgress, ⟨2, 7, 4⟩⟩ : Game) := by decide
  have s2 : (((⟨[[Ec, Ec, Ec, Ec, Ec, Ec, Ec], [Ec, Yc, Ec, Ec, Ec, Ec, Ec]], .red, .inProgress, ⟨2, 7, 4⟩⟩ : Game)).place 0).2 =
      (⟨[[Ec, Ec, Ec, Ec, Ec, Ec, Ec], [Rc, Yc, Ec, Ec, Ec, Ec, Ec]], .yellow, .inProgress, ⟨2, 7, 4⟩⟩ : Game) := by decide
  have s3 : (((⟨[[Ec, Ec, Ec, Ec, Ec, Ec, Ec], [Rc, Yc, Ec, Ec, Ec, Ec, Ec]], .yellow, .inProgress, ⟨2, 7, 4⟩⟩ : Game)).place 1).2 =
      (⟨[[Ec, Yc, Ec, Ec, Ec, Ec, Ec], [Rc, Yc, Ec, Ec, Ec, Ec, Ec]], .red, .inProgress, ⟨2, 7, 4⟩⟩ : Game) := by decide
  have s4 : (((⟨[[Ec, Yc, Ec, Ec, Ec, Ec, Ec], [Rc, Yc, Ec, Ec, Ec, Ec, Ec]], .red, .inProgress, ⟨2, 7, 4⟩⟩ : Game)).place 0).2 =
      (⟨[[Rc, Yc, Ec, Ec, Ec, Ec, Ec], [Rc, Yc, Ec, Ec, Ec, Ec, Ec]], .yellow, .inProgress, ⟨2, 7, 4⟩⟩ : Game) := by decide
  have s5 : (((⟨[[Rc, Yc, Ec, Ec, Ec, Ec, Ec], [Rc, Yc, Ec, Ec, Ec, Ec, Ec]], .yellow, .inProgress, ⟨2, 7, 4⟩⟩ : Game)).place 4).2 =
      (⟨[[Rc, Yc, Ec, Ec, Ec, Ec, Ec], [Rc, Yc, Ec, Ec, Yc, Ec, Ec]], .red, .inProgress, ⟨2, 7, 4⟩⟩ : Game) := by decide
  have s6 : (((⟨[[Rc, Yc, Ec, Ec, Ec, Ec, Ec], [Rc, Yc, Ec, Ec, Yc, Ec, Ec]], .red, .inProgress, ⟨2, 7, 4⟩⟩ : Game)).place 2).2 =
      (⟨[[Rc, Yc, Ec, Ec, Ec, Ec, Ec], [Rc, Yc, Rc, Ec, Yc, Ec, Ec]], .yellow, .inProgress, ⟨2, 7, 4⟩⟩ : Game) := by decide
  have s7 : (((⟨[[Rc, Yc, Ec, Ec, Ec, Ec, Ec], [Rc, Yc, Rc, Ec, Yc, Ec, Ec]], .yellow, .inProgress, ⟨2, 7, 4⟩⟩ : Game)).place 6).2 =
      (⟨[[Rc, Yc, Ec, Ec, Ec, Ec, Ec], [Rc, Yc, Rc, Ec, Yc, Ec, Yc]], .red, .inProgress, ⟨2, 7, 4⟩⟩ : Game) := by decide
  have s8 : (((⟨[[Rc, Yc, Ec, Ec, Ec, Ec, Ec], [Rc, Yc, Rc, Ec, Yc, Ec, Yc]], .red, .inProgress, ⟨2, 7, 4⟩⟩ : Game)).place 3).2 =
      greedyCexLit := by decide
  rw [greedyCex, playSeq_cons, s1, playSeq_cons, s2, playSeq_cons, s3, playSeq_cons, s4, playSeq_cons, s5, playSeq_cons, s6, playSeq_cons, s7, playSeq_cons, s8, playSeq_nil]

/-! ### Helper lemmas about the board primitives -/

theorem find?_reverse_range_some {p : Nat → Bool} {n x : Nat}
    (h : (List.range n).reverse.find? p = some x) :
    x < n ∧ p x = true ∧ ∀ y, x < y → y < n → p y = false := by
  induction n with
  | zero => simp at h
  | succ n ih =>
    rw [List.range_succ, List.reverse_append] at h
    by_cases hp : p n
    · rw [show ([n] : List Nat).reverse ++ (List.range n).reverse
            = n :: (List.range n).reverse from rfl,
        List.find?_cons_of_pos _ hp] at h
      obtain rfl : n = x := by simpa using h
      exact ⟨by omega, hp, fun y hy hy' => by omega⟩
    · rw [show ([n] : List Nat).reverse ++ (List.range n).reverse
            = n :: (List.range n).reverse from rfl,
        List.find?_cons_of_neg _ hp] at h
      obtain ⟨h1, h2, h3⟩ := ih h
      refine ⟨by omega, h2, fun y hy hy' => ?_⟩
      by_cases hyn : y = n
      · subst hyn; simpa using hp
      · exact h3 y hy (by omega)

theorem find?_reverse_range_none {p : Nat → Bool} {n : Nat}
    (h : ∀ y, y < n → p y = false) : (List.range n).reverse.find? p = none := by
  rw [List.find?_eq_none]
  intro x hx
  rw [List.mem_reverse, List.mem_range] at hx
  simp [h x hx]

theorem isColumnFullRows_true {b : Board} {col : Nat}
    (h : isColumnFullRows b col = some true) :
    ∀ row ∈ b, ∃ p, row[col]? = some (some p) := by
  induction b with
  | nil => simp
  | cons row rest ih =>
    intro r hr
    rw [isColumnFullRows] at h
    rcases hcell : row[col]? with _ | cell
    · rw [hcell] at h; simp at h
    · rw [hcell] at h
      rcases hc : cell with _ | p
      · subst hc; simp at h
      · subst hc
        simp only [Option.isSome_some, if_pos] at h
        rcases List.mem_cons.mp hr with rfl | hmem
        · exact ⟨p, hcell⟩
        · exact ih h r hmem

theorem cellAt_of_full {g : Game} {col : Nat} (h : g.is_column_full col = some true)
    {r : Nat} (hr : r < g.board.length) : (cellAt g.board r col).isNone = false := by
  have hrow : g.board[r] ∈ g.board := List.getElem_mem hr
  obtain ⟨p, hp⟩ := isColumnFullRows_true h _ hrow
  rw [cellAt, List.getD_eq_getElem?_getD g.board r [], List.getElem?_eq_getElem hr]
  simp only [Option.getD_some, List.getD_eq_getElem?_getD, hp]
  rfl

theorem findRow_of_full {g : Game} {col : Nat} (hwf : g.WF)
    (h : g.is_column_full col = some true) : findRow g col = none := by
  rw [findRow]
  apply find?_reverse_range_none
  intro r hr
  have : r < g.board.length := by rw [hwf.1]; exact hr
  exact cellAt_of_full h this

/-! ### Projections of `Game.placeAt` -/

theorem placeAt_board (g : Game) (row col : Nat) :
    (g.placeAt row col).board = setCell g.board row col (some g.current_player) := by
  rw [Game.placeAt]
  dsimp only
  split_ifs <;> rfl

theorem placeAt_config (g : Game) (row col : Nat) :
    (g.placeAt row col).config = g.config := by
  rw [Game.placeAt]
  dsimp only
  split_ifs <;> rfl

theorem placeAt_player (g : Game) (row col : Nat) :
    (g.placeAt row col).current_player =
      (if (g.placeAt row col).state = .inProgress then g.current_player.other
       else g.current_player) := by
  rw [Game.placeAt]
  dsimp only
  split_ifs with h1 h2 h3 <;> simp_all

/-! ### Reduction lemmas for `Game.place` -/

theorem place_ended (g : Game) (col : Nat) (h : g.state ≠ .inProgress) :
    g.place col = (some g.state, g) := by
  rw [Game.place, if_pos h]

theorem place_out_of_range (g : Game) (col : Nat) (h1 : g.state = .inProgress)
    (h2 : g.config.cols ≤ col) : g.place col = (none, g) := by
  rw [Game.place, if_neg (by simp [h1]), if_pos h2]

theorem place_col_full (g : Game) (col : Nat) (h1 : g.state = .inProgress)
    (h2 : col < g.config.cols) (h3 : findRow g col = none) :
    g.place col = (none, g) := by
  rw [Game.place, if_neg (by simp [h1]), if_neg (by omega), h3]

theorem place_success (g : Game) (col row : Nat) (h1 : g.state = .inProgress)
    (h2 : col < g.config.cols) (h3 : findRow g col = some row) :
    g.place col = (some (g.placeAt row col).state, g.placeAt row col) := by
  rw [Game.place, if_neg (by simp [h1]), if_neg (by omega), h3]

/-! ### C4 -/

/-- Counterexample for C4: on a board already won by Yellow, `place` does not
return the absent result; it returns `some (Won Yellow)` for column 3. -/
theorem place_after_end_not_absent :
    smallVert.state = GameState.won Player.yellow
    ∧ (smallVert.place 3).1 = some (GameState.won Player.yellow) := by
  rw [smallVert_eq_lit]
  exact ⟨by decide, by decide⟩

/-- C4 (amended): `place` returns the absent result, leaving the board
unchanged, when the game is in progress and the column is out of range or
full; but on a board whose status is not `InProgress` it returns the
unchanged terminal status as a present value, for every column, again
without mutating anything. -/
theorem place_rejects_invalid (g : Game) (col : Nat) :
    (g.state ≠ .inProgress → g.place col = (some g.state, g))
    ∧ (g.state = .inProgress → g.config.cols ≤ col → g.place col = (none, g))
    ∧ (g.state = .inProgress → col < g.config.cols → findRow g col = none →
        g.place col = (none, g)) :=
  ⟨fun h => place_ended g col h,
   fun h1 h2 => place_out_of_range g col h1 h2,
   fun h1 h2 h3 => place_col_full g col h1 h2 h3⟩

/-! ### C7 -/

/-- Counterexample for C7: on the full, drawn 1x1 board, dropping into the
full column 0 returns `some Draw`, not the absent result (the board is
still unchanged). -/
theorem full_column_after_end_not_absent :
    tiny.is_column_full 0 = some true ∧ tiny.state = GameState.draw
    ∧ (tiny.place 0).1 = some GameState.draw ∧ (tiny.place 0).2 = tiny := by
  exact ⟨rfl, rfl, rfl, rfl⟩

/-- C7 (amended): for every board size and connect-length and every board
with a full column, `place` on that column leaves the board completely
unchanged, and returns the absent result exactly when the game is still in
progress (an ended game returns its unchanged terminal status instead). -/
theorem place_full_column_unchanged (g : Game) (col : Nat) (hwf : g.WF)
    (hcol : col < g.config.cols) (hfull : g.is_column_full col = some true) :
    g.place col = (if g.state = .inProgress then none else some g.state, g) := by
  by_cases hst : g.state = .inProgress
  · rw [if_pos hst]
    exact place_col_full g col hst hcol (findRow_of_full hwf hfull)
  · rw [if_neg hst]
    exact place_ended g col hst

/-- Witness for C7's theorem at the full 1x1 drawn board. -/
theorem place_full_column_unchanged_witness :
    tiny.place 0 = (if tiny.state = .inProgress then none else some tiny.state, tiny) :=
  place_full_column_unchanged tiny 0 (by decide) (by decide) (by decide)

/-! ### C1, C2, C3, C10 evaluations -/

/-- C1: the code evaluated at the failing input.  On the Small preset
(4x4, connect-length 3), after Yellow 0, Red 3, Yellow 1, Red 3, Yellow 2,
the just-placed cell (3,2) lies on a horizontal same-player run of length 3,
which reaches `connect_length = 3`, yet the status is still `InProgress`:
`check_win` compares against the literal 4, not `connect_length`. -/
theorem small_three_run_not_won :
    smallThree.config.connect_length = 3
    ∧ smallThree.count_consecutive 3 2 0 1 = 3
    ∧ smallThree.state = GameState.inProgress := by
  exact ⟨rfl, rfl, rfl⟩

/-- C2: the code evaluated at the failing input.  On the Small preset with
`connect_length = 3`, a board won by Yellow yields a winning combination of
exactly 4 cells, not `connect_length` cells: `get_winning_combination`
scans for runs of the literal length 4. -/
theorem small_winning_combination_length_four :
    smallVert.config.connect_length = 3
    ∧ smallVert.state = GameState.won Player.yellow
    ∧ smallVert.get_winning_combination = some [(0, 0), (1, 0), (2, 0), (3, 0)]
    ∧ (smallVert.get_winning_combination.getD []).length = 4 := by
  rw [smallVert_eq_lit]
  exact ⟨by decide, by decide, by decide, by decide⟩

/-- C3: the code evaluated at the failing input.  On a fresh Small-preset
board (4 columns), the Search Agent's `get_action` reaches the out-of-bounds
panic (`none`) for every `max_depth`: its move scan iterates the hard-coded
columns 0..6 and `is_column_full 4` indexes past the 4-cell rows. -/
theorem minimax_get_action_panics_small (max_depth : Nat) :
    Minimax.get_action max_depth (Game.with_config ⟨4, 4, 3⟩) = none := rfl

/-- C10: on a board whose every column is full (the 1x1 drawn board), the
Random agent's `get_action` does not return an absent result: the valid-move
set is empty, so `random_range(0..0)` panics — the embedding's error branch
(the outer `none`) is reached for every rng sample. -/
theorem random_agent_empty_panics :
    tiny.valid_moves = [] ∧ ∀ sample, RandomAgent.get_action tiny sample = none := by
  refine ⟨rfl, fun s => ?_⟩
  rw [RandomAgent.get_action, if_pos (show tiny.valid_moves.length = 0 from rfl)]

/-! ### C9 -/

/-- C9: for every agent state, terminal board and player, calling `learn` a
second time immediately after a first call is a no-op (the first call clears
the episode history), and `learn` leaves the whole agent state — value table
included — unchanged whenever learning is disabled or the history is empty. -/
theorem rl_learn_second_noop (a : RLAgent) (g : Game) (p : Player) :
    (g.state ≠ .inProgress → (a.learn g p).learn g p = a.learn g p)
    ∧ ((a.learning = false ∨ a.move_history = []) → a.learn g p = a) := by
  have hnoop : ∀ b : RLAgent, b.move_history = [] → b.learn g p = b := by
    intro b hb
    rw [RLAgent.learn, if_pos (Or.inr hb)]
  constructor
  · intro hst
    by_cases hl : a.learning
    · by_cases hh : a.move_history = []
      · rw [hnoop a hh, hnoop a hh]
      · have hcore : ∀ r : Rat, (a.learnCore r).move_history = [] := by
          intro r; simp [RLAgent.learnCore]
        cases hgs : g.state with
        | inProgress => exact absurd hgs hst
        | won w =>
          have h1 : a.learn g p = a.learnCore (if w = p then 5 else -10) := by
            rw [RLAgent.learn, if_neg (by simp [hl, hh]), hgs]
          rw [h1]; exact hnoop _ (hcore _)
        | draw =>
          have h1 : a.learn g p = a.learnCore 1 := by
            rw [RLAgent.learn, if_neg (by simp [hl, hh]), hgs]
          rw [h1]; exact hnoop _ (hcore _)
    · have ha : a.learn g p = a := by
        rw [RLAgent.learn, if_pos (Or.inl hl)]
      rw [ha]; exact ha
  · rintro (h | h)
    · rw [RLAgent.learn, if_pos (Or.inl (by simp [h]))]
    · exact hnoop a h

/-! ### `Nat.repr` renders the decimal digits: groundwork for C5 -/

theorem toDigitsCore_eq_decRepr (fuel : Nat) : ∀ (n : Nat) (acc : List Char), n < fuel →
    Nat.toDigitsCore 10 fuel n acc = decRepr n ++ acc := by
  induction fuel with
  | zero => intro n acc h; omega
  | succ f ih =>
    intro n acc h
    rw [show Nat.toDigitsCore 10 (f + 1) n acc =
        (if n / 10 = 0 then Nat.digitChar (n % 10) :: acc
         else Nat.toDigitsCore 10 f (n / 10) (Nat.digitChar (n % 10) :: acc)) from by
      simp only [Nat.toDigitsCore]]
    by_cases h0 : n / 10 = 0
    · have hn : n < 10 := by omega
      rw [if_pos h0,
        show decRepr n = [Nat.digitChar n] from by rw [decRepr, if_pos hn],
        Nat.mod_eq_of_lt hn]
      rfl
    · have hlt : n / 10 < f := by
        have h1 : n / 10 < n := Nat.div_lt_self (by omega) (by omega)
        omega
      rw [if_neg h0, ih (n / 10) _ hlt,
        show decRepr n = decRepr (n / 10) ++ [Nat.digitChar (n % 10)] from by
          rw [decRepr, if_neg (by omega)],
        List.append_assoc]
      rfl

theorem repr_data_eq_decRepr (n : Nat) : (Nat.repr n).data = decRepr n := by
  show (Nat.toDigits 10 n).asString.data = decRepr n
  rw [show Nat.toDigits 10 n = Nat.toDigitsCore 10 (n + 1) n [] from rfl,
    toDigitsCore_eq_decRepr (n + 1) n [] (by omega), List.append_nil]
  rfl

theorem digitChar_toNat_sub (d : Nat) (h : d < 10) : (Nat.digitChar d).toNat - 48 = d := by
  interval_cases d <;> rfl

theorem digitChar_ne_x (d : Nat) (h : d < 10) : Nat.digitChar d ≠ 'x' := by
  interval_cases d <;> decide

theorem decVal_decRepr (n : Nat) : decVal (decRepr n) = n := by
  induction n using Nat.strong_induction_on with
  | _ n ih =>
    by_cases h : n < 10
    · rw [show decRepr n = [Nat.digitChar n] from by rw [decRepr, if_pos h]]
      simp only [decVal, List.foldl]
      rw [digitChar_toNat_sub n h]
      omega
    · rw [show decRepr n = decRepr (n / 10) ++ [Nat.digitChar (n % 10)] from by
        rw [decRepr, if_neg h]]
      simp only [decVal, List.foldl_append, List.foldl]
      rw [digitChar_toNat_sub (n % 10) (Nat.mod_lt _ (by omega))]
      have hrec := ih (n / 10) (Nat.div_lt_self (by omega) (by omega))
      simp only [decVal] at hrec
      rw [hrec]
      omega

theorem decRepr_ne_x (n : Nat) : ∀ c ∈ decRepr n, c ≠ 'x' := by
  induction n using Nat.strong_induction_on with
  | _ n ih =>
    by_cases h : n < 10
    · rw [show decRepr n = [Nat.digitChar n] from by rw [decRepr, if_pos h]]
      intro c hc
      rw [List.mem_singleton] at hc
      subst hc
      exact digitChar_ne_x n h
    · rw [show decRepr n = decRepr (n / 10) ++ [Nat.digitChar (n % 10)] from by
        rw [decRepr, if_neg h]]
      intro c hc
      rcases List.mem_append.mp hc with hc | hc
      · exact ih (n / 10) (Nat.div_lt_self (by omega) (by omega)) c hc
      · rw [List.mem_singleton] at hc
        subst hc
        exact digitChar_ne_x _ (Nat.mod_lt _ (by omega))

theorem repr_data_inj {m n : Nat} (h : (Nat.repr m).data = (Nat.repr n).data) : m = n := by
  rw [repr_data_eq_decRepr, repr_data_eq_decRepr] at h
  calc m = decVal (decRepr m) := (decVal_decRepr m).symm
    _ = n := by rw [h]; exact decVal_decRepr n

theorem append_sep_inj : ∀ (a b r s : List Char),
    (∀ c ∈ a, c ≠ 'x') → (∀ c ∈ b, c ≠ 'x') →
    a ++ 'x' :: r = b ++ 'x' :: s → a = b ∧ r = s := by
  intro a
  induction a with
  | nil =>
    intro b r s _ hb h
    cases b with
    | nil => simpa using h
    | cons d b' =>
      simp only [List.nil_append, List.cons_append, List.cons.injEq] at h
      exact absurd h.1.symm (hb d (by simp))
  | cons c a' ih =>
    intro b r s ha hb h
    cases b with
    | nil =>
      simp only [List.cons_append, List.nil_append, List.cons.injEq] at h
      exact absurd h.1 (ha c (by simp))
    | cons d b' =>
      simp only [List.cons_append, List.cons.injEq] at h
      obtain ⟨rfl, h2⟩ := h
      obtain ⟨h3, h4⟩ := ih b' r s (fun z hz => ha z (by simp [hz]))
        (fun z hz => hb z (by simp [hz])) h2
      exact ⟨by rw [h3], h4⟩

/-! ### C5 -/

/-- Counterexample for C5: the Small preset (4x4, connect-length 3) and the
same board with connect-length 4 are distinct `BoardConfig`s persisted to
the same value-table file. -/
theorem save_path_collision :
    RLAgent.save_path ⟨4, 4, 3⟩ = RLAgent.save_path ⟨4, 4, 4⟩
    ∧ (⟨4, 4, 3⟩ : GameConfig) ≠ ⟨4, 4, 4⟩ := by
  exact ⟨rfl, by decide⟩

/-- C5 (amended): the Learning Agent's persistence-file path is keyed by
`cols` and `rows` only: two `BoardConfig`s are persisted to the same file
exactly when they agree on both dimensions, so configs differing in rows or
cols never collide, while configs differing only in `connect_length` share
one file. -/
theorem save_path_inj_iff (c1 c2 : GameConfig) :
    RLAgent.save_path c1 = RLAgent.save_path c2 ↔
      (c1.cols = c2.cols ∧ c1.rows = c2.rows) := by
  constructor
  · intro h
    simp only [RLAgent.save_path, List.cons.injEq, and_true, true_and] at h
    have hdata := congrArg String.data h
    simp only [String.data_append, List.append_assoc, List.singleton_append] at hdata
    have hcut := List.append_cancel_left hdata
    obtain ⟨hc, hr⟩ := append_sep_inj _ _ _ _
      (by rw [repr_data_eq_decRepr]; exact decRepr_ne_x _)
      (by rw [repr_data_eq_decRepr]; exact decRepr_ne_x _) hcut
    exact ⟨repr_data_inj hc, repr_data_inj (List.append_cancel_right hr)⟩
  · rintro ⟨h1, h2⟩
    simp only [RLAgent.save_path, h1, h2]

/-! ### The greedy fold: groundwork for C6 -/

theorem bestStep_eq (g : Game) : bestStep g = genStep (GreedyAgent.evaluate_move g) := rfl

theorem evaluate_move_ge (g : Game) (col : Nat) : -1 ≤ GreedyAgent.evaluate_move g col := by
  rw [GreedyAgent.evaluate_move]
  dsimp only
  split
  · exact le_refl _
  · refine le_trans (by omega) (List.sum_nonneg ?_)
    intro x hx
    obtain ⟨row, hrow, rfl⟩ := List.mem_map.mp hx
    refine List.sum_nonneg ?_
    intro y hy
    obtain ⟨cc, hcc, rfl⟩ := List.mem_map.mp hy
    split
    · split
      · exact Int.natCast_nonneg _
      · exact le_refl 0
    · exact le_refl 0

theorem foldl_max_le_init (f : Nat → Int) (l : List Nat) (b : Int) :
    b ≤ l.foldl (fun x d => max x (f d)) b := by
  induction l generalizing b with
  | nil => exact le_refl b
  | cons c cs ih => exact le_trans (le_max_left b (f c)) (ih (max b (f c)))

theorem foldl_max_mem_le (f : Nat → Int) (l : List Nat) (b : Int) :
    ∀ d ∈ l, f d ≤ l.foldl (fun x d => max x (f d)) b := by
  induction l generalizing b with
  | nil => simp
  | cons c cs ih =>
    intro d hd
    rcases List.mem_cons.mp hd with rfl | hd
    · exact le_trans (le_max_right b (f d)) (foldl_max_le_init f cs _)
    · exact ih _ d hd

theorem foldl_max_attained (f : Nat → Int) (l : List Nat) (b : Int) :
    l.foldl (fun x d => max x (f d)) b = b
      ∨ ∃ d ∈ l, l.foldl (fun x d => max x (f d)) b = f d := by
  induction l generalizing b with
  | nil => exact Or.inl rfl
  | cons c cs ih =>
    rw [List.foldl_cons]
    rcases ih (max b (f c)) with h | ⟨d, hd, h⟩
    · by_cases hbc : f c ≤ b
      · left
        rw [h, max_eq_left hbc]
      · right
        exact ⟨c, by simp, by rw [h, max_eq_right (le_of_not_le hbc)]⟩
    · right
      exact ⟨d, by simp [hd], h⟩

theorem genFold_fst (f : Nat → Int) : ∀ (vm : List Nat) (b : Int) (M : List Nat),
    (vm.foldl (genStep f) (b, M)).1 = vm.foldl (fun x d => max x (f d)) b := by
  intro vm
  induction vm with
  | nil => intro b M; rfl
  | cons c cs ih =>
    intro b M
    rw [List.foldl_cons, List.foldl_cons]
    rcases lt_trichotomy b (f c) with h | h | h
    · rw [show genStep f (b, M) c = (f c, [c]) from by
        rw [genStep]; dsimp only; rw [if_pos h], max_eq_right h.le]
      exact ih _ _
    · rw [show genStep f (b, M) c = (b, M ++ [c]) from by
        rw [genStep]; dsimp only; rw [if_neg (by omega), if_pos h.symm],
        max_eq_left h.ge]
      exact ih _ _
    · rw [show genStep f (b, M) c = (b, M) from by
        rw [genStep]; dsimp only; rw [if_neg (by omega), if_neg (by omega)],
        max_eq_left h.le]
      exact ih _ _

theorem genFold_snd (f : Nat → Int) : ∀ (vm : List Nat) (b : Int) (M : List Nat),
    (vm.foldl (genStep f) (b, M)).2
      = (if (vm.foldl (genStep f) (b, M)).1 = b then M else [])
        ++ vm.filter (fun d => decide (f d = (vm.foldl (genStep f) (b, M)).1)) := by
  intro vm
  induction vm with
  | nil =>
    intro b M
    simp
  | cons c cs ih =>
    intro b M
    rw [List.foldl_cons]
    rcases lt_trichotomy b (f c) with h | h | h
    · have hstep : genStep f (b, M) c = (f c, [c]) := by
        rw [genStep]; dsimp only; rw [if_pos h]
      rw [hstep, ih (f c) [c], List.filter_cons]
      have hfcR : f c ≤ (cs.foldl (genStep f) (f c, [c])).1 := by
        rw [genFold_fst]; exact foldl_max_le_init f cs (f c)
      have hRb : ¬(cs.foldl (genStep f) (f c, [c])).1 = b := by omega
      by_cases hc : f c = (cs.foldl (genStep f) (f c, [c])).1
      · rw [if_pos hc.symm, if_neg hRb, if_pos (decide_eq_true hc)]
        simp
      · rw [if_neg (fun hh => hc hh.symm), if_neg hRb,
          if_neg (by simpa using hc)]
    · have hstep : genStep f (b, M) c = (b, M ++ [c]) := by
        rw [genStep]; dsimp only; rw [if_neg (by omega), if_pos h.symm]
      rw [hstep, ih b (M ++ [c]), List.filter_cons]
      by_cases hR : (cs.foldl (genStep f) (b, M ++ [c])).1 = b
      · rw [if_pos hR, if_pos hR, if_pos (decide_eq_true (by omega))]
        simp
      · rw [if_neg hR, if_neg hR,
          if_neg (by simpa using show ¬f c = (cs.foldl (genStep f) (b, M ++ [c])).1 by omega)]
    · have hstep : genStep f (b, M) c = (b, M) := by
        rw [genStep]; dsimp only; rw [if_neg (by omega), if_neg (by omega)]
      rw [hstep, ih b M, List.filter_cons]
      have hbR : b ≤ (cs.foldl (genStep f) (b, M)).1 := by
        rw [genFold_fst]; exact foldl_max_le_init f cs b
      have hfc : ¬(decide (f c = (cs.foldl (genStep f) (b, M)).1) = true) := by
        simpa using show ¬f c = (cs.foldl (genStep f) (b, M)).1 by omega
      by_cases hR : (cs.foldl (genStep f) (b, M)).1 = b
      · rw [if_pos hR, if_neg hfc]
      · rw [if_neg hR, if_neg hfc]

theorem bestCols_eq_filter (g : Game) :
    bestCols g = g.valid_moves.filter
      (fun d => decide (GreedyAgent.evaluate_move g d = bestScore g)) := by
  rw [bestCols, bestStep_eq, genFold_snd, ite_self, List.nil_append, bestScore,
    genFold_fst]

theorem bestCols_ne_nil (g : Game) (h : g.valid_moves ≠ []) : bestCols g ≠ [] := by
  rw [bestCols_eq_filter]
  rcases foldl_max_attained (GreedyAgent.evaluate_move g) g.valid_moves (-1) with hB | ⟨d, hd, hB⟩
  · obtain ⟨d, hd⟩ := List.exists_mem_of_ne_nil _ h
    have h1 : GreedyAgent.evaluate_move g d ≤ bestScore g := foldl_max_mem_le _ _ _ d hd
    have h2 : -1 ≤ GreedyAgent.evaluate_move g d := evaluate_move_ge g d
    have h3 : GreedyAgent.evaluate_move g d = bestScore g := by
      rw [bestScore] at h1 ⊢
      omega
    exact List.ne_nil_of_mem (List.mem_filter.mpr ⟨hd, by simpa using h3⟩)
  · exact List.ne_nil_of_mem (List.mem_filter.mpr ⟨hd, by simp [bestScore, hB]⟩)

/-! ### The stable sort of the greedy tie-break -/

theorem sortByKey_head_spec (key : Nat → Nat) : ∀ (l : List Nat), l ≠ [] →
    List.Pairwise (· < ·) l →
    ∃ m rest, sortByKey key l = m :: rest ∧ m ∈ l
      ∧ (∀ y ∈ l, key m ≤ key y) ∧ (∀ y ∈ l, key y = key m → m ≤ y) := by
  intro l
  induction l with
  | nil => intro h; exact absurd rfl h
  | cons x xs ih =>
    intro _ hp
    rcases List.pairwise_cons.mp hp with ⟨hx, hp'⟩
    by_cases hxs : xs = []
    · subst hxs
      exact ⟨x, [], rfl, by simp, by simp, by simp⟩
    · obtain ⟨m, rest, hsort, hm, hmin, htie⟩ := ih hxs hp'
      rw [sortByKey, hsort, insertByKey]
      by_cases hk : key x ≤ key m
      · rw [if_pos hk]
        refine ⟨x, m :: rest, rfl, by simp, ?_, ?_⟩
        · intro y hy
          rcases List.mem_cons.mp hy with rfl | hy
          · exact le_refl _
          · exact le_trans hk (hmin y hy)
        · intro y hy _
          rcases List.mem_cons.mp hy with rfl | hy
          · exact le_refl _
          · exact le_of_lt (hx y hy)
      · rw [if_neg hk]
        refine ⟨m, insertByKey key x rest, rfl, by simp [hm], ?_, ?_⟩
        · intro y hy
          rcases List.mem_cons.mp hy with rfl | hy
          · omega
          · exact hmin y hy
        · intro y hy hkey
          rcases List.mem_cons.mp hy with rfl | hy
          · omega
          · exact htie y hy hkey

/-! ### C6 -/

/-- Counterexample for C6: on a reachable board whose columns 0 and 1 are
full, columns 2 and 5 tie for the highest greedy score; the code returns
column 2 (closest to `valid_moves.len()/2 = 2`), while the column closest
to the horizontal center of the valid-move set {2,3,4,5,6} is 5. -/
theorem greedy_center_counterexample :
    GreedyAgent.get_action greedyCex = some 2 ∧ specGreedyChoice greedyCex = some 5 := by
  rw [greedyCex_eq_lit]
  exact ⟨by decide, by decide⟩

/-- C6 (amended): whenever the Greedy Agent returns a column, that column is
among the columns tied for the highest score, and among those it is the one
closest to half the size of the valid-move set taken as a column index
(which is the horizontal board center only when no column is full), with
residual distance ties broken by the smaller column index. -/
theorem greedy_tiebreak_amended (g : Game) (c : Nat)
    (hact : GreedyAgent.get_action g = some c) :
    bestCols g = g.valid_moves.filter
        (fun d => decide (GreedyAgent.evaluate_move g d = bestScore g))
    ∧ c ∈ bestCols g
    ∧ (∀ d ∈ bestCols g, distKey (g.valid_moves.length / 2) c
        ≤ distKey (g.valid_moves.length / 2) d)
    ∧ (∀ d ∈ bestCols g, distKey (g.valid_moves.length / 2) d
        = distKey (g.valid_moves.length / 2) c → c ≤ d) := by
  refine ⟨bestCols_eq_filter g, ?_⟩
  rw [GreedyAgent.get_action] at hact
  dsimp only at hact
  by_cases hvm : g.valid_moves.isEmpty
  · rw [if_pos hvm] at hact
    exact absurd hact (by simp)
  · rw [if_neg hvm] at hact
    have hvm' : g.valid_moves ≠ [] := by
      simpa [List.isEmpty_iff] using hvm
    rw [show (g.valid_moves.foldl (bestStep g) (-1, [])).2 = bestCols g from rfl] at hact
    have hne : bestCols g ≠ [] := bestCols_ne_nil g hvm'
    have hpair : (bestCols g).Pairwise (· < ·) := by
      rw [bestCols_eq_filter]
      exact ((List.pairwise_lt_range g.config.cols).filter _).filter _
    by_cases hlen : 1 < (bestCols g).length
    · rw [if_pos hlen] at hact
      obtain ⟨m, rest, hsort, hm, hmin, htie⟩ :=
        sortByKey_head_spec (distKey (g.valid_moves.length / 2)) (bestCols g) hne hpair
      rw [hsort] at hact
      have hc : m = c := by simpa using hact
      subst hc
      exact ⟨hm, hmin, htie⟩
    · rw [if_neg hlen] at hact
      obtain ⟨z, hz⟩ : ∃ z, bestCols g = [z] := by
        rcases hl : bestCols g with _ | ⟨z, zs⟩
        · exact absurd hl hne
        · rcases zs with _ | ⟨w, ws⟩
          · exact ⟨z, rfl⟩
          · rw [hl] at hlen
            simp at hlen
      rw [hz] at hact ⊢
      have hc : z = c := by simpa using hact
      subst hc
      refine ⟨by simp, ?_, ?_⟩
      · intro d hd
        rw [List.mem_singleton] at hd
        subst hd
        exact le_refl _
      · intro d hd _
        rw [List.mem_singleton] at hd
        omega

/-- Witness for C6's amended theorem at the concrete 2x7 position. -/
theorem greedy_tiebreak_amended_witness : 2 ∈ bestCols greedyCexLit :=
  (greedy_tiebreak_amended greedyCexLit 2 (by decide)).2.1

/-! ### Cell-level effect of `setCell`: groundwork for C8 -/

theorem cellAt_eq (b : Board) (r c : Nat) :
    cellAt b r c = ((b[r]?.getD [])[c]?).getD none := by
  rw [cellAt, List.getD_eq_getElem?_getD, List.getD_eq_getElem?_getD]

theorem cellAt_setCell_same {b : Board} {r c : Nat} (v : Option Player)
    (hr : r < b.length) (hc : c < (b.getD r []).length) :
    cellAt (setCell b r c v) r c = v := by
  rw [cellAt_eq, setCell, List.getElem?_set_self (by simpa using hr)]
  simp only [Option.getD_some]
  rw [List.getElem?_set_self hc]
  rfl

theorem cellAt_setCell_other {b : Board} {r c : Nat} (v : Option Player) {r' c' : Nat}
    (h : ¬(r' = r ∧ c' = c)) :
    cellAt (setCell b r c v) r' c' = cellAt b r' c' := by
  by_cases hr : r' = r
  · subst hr
    have hc : ¬c' = c := fun hh => h ⟨rfl, hh⟩
    by_cases hlen : r' < b.length
    · rw [cellAt_eq, cellAt_eq, setCell, List.getElem?_set_self (by simpa using hlen)]
      simp only [Option.getD_some]
      rw [List.getElem?_set_ne (fun hh => hc hh.symm), List.getD_eq_getElem?_getD]
    · rw [setCell, List.set_eq_of_length_le (by omega)]
  · rw [cellAt_eq, cellAt_eq, setCell, List.getElem?_set_ne (fun hh => hr hh.symm)]

/-! ### What `findRow` finds -/

theorem findRow_some_spec {g : Game} {col row : Nat} (h : findRow g col = some row) :
    row < g.config.rows ∧ cellAt g.board row col = none
    ∧ ∀ r', row < r' → r' < g.config.rows → cellAt g.board r' col ≠ none := by
  obtain ⟨h1, h2, h3⟩ := find?_reverse_range_some h
  refine ⟨h1, by simpa using h2, ?_⟩
  intro r' hlt hup heq
  have hfalse := h3 r' hlt hup
  rw [heq] at hfalse
  simp at hfalse

/-! ### C8 -/

/-- C8: after every successful `place` (game in progress, column in range,
a landing row found), exactly one cell changed — the lowest previously-empty
cell of that column, set from empty to the mover's piece, every other cell
unchanged — and the current player alternates exactly when the resulting
status is `InProgress`. -/
theorem place_success_frame (g : Game) (col row : Nat) (hwf : g.WF)
    (hst : g.state = .inProgress) (hcol : col < g.config.cols)
    (hrow : findRow g col = some row) :
    (g.place col).1 = some (g.place col).2.state
    ∧ row < g.config.rows
    ∧ cellAt g.board row col = none
    ∧ (∀ r', row < r' → r' < g.config.rows → cellAt g.board r' col ≠ none)
    ∧ cellAt (g.place col).2.board row col = some g.current_player
    ∧ (∀ r' c', ¬(r' = row ∧ c' = col) →
        cellAt (g.place col).2.board r' c' = cellAt g.board r' c')
    ∧ (g.place col).2.current_player
        = (if (g.place col).2.state = .inProgress then g.current_player.other
           else g.current_player)
    ∧ (g.place col).2.config = g.config := by
  obtain ⟨hr1, hr2, hr3⟩ := findRow_some_spec hrow
  have hp := place_success g col row hst hcol hrow
  rw [hp]
  dsimp only
  have hb : (g.placeAt row col).board = setCell g.board row col (some g.current_player) :=
    placeAt_board g row col
  refine ⟨rfl, hr1, hr2, hr3, ?_, ?_, placeAt_player g row col, placeAt_config g row col⟩
  · rw [hb]
    apply cellAt_setCell_same
    · rw [hwf.1]; exact hr1
    · have hrl : row < g.board.length := by rw [hwf.1]; exact hr1
      rw [List.getD_eq_getElem?_getD, List.getElem?_eq_getElem hrl]
      simp only [Option.getD_some]
      rw [hwf.2 _ (List.getElem_mem hrl)]
      exact hcol
  · intro r' c' hne
    rw [hb]
    exact cellAt_setCell_other _ hne

/-- Witness for C8's theorem: the first drop on a fresh standard board lands
in the bottom cell of column 0. -/
theorem place_success_frame_witness :
    cellAt ((Game.with_config ⟨6, 7, 4⟩).place 0).2.board 5 0
      = some (Game.with_config ⟨6, 7, 4⟩).current_player :=
  (place_success_frame (Game.with_config ⟨6, 7, 4⟩) 0 5 (by decide) rfl (by decide)
    (by decide)).2.2.2.2.1

end Connect4
